import Mathlib

/-!
Verification of the BlockConsolidator / ConsolidateBlocks specification.

The consolidation pass itself (`ConsolidateBlocks.run`) is not part of the
source tree; only its test suite is.  The data model and the algorithm are
therefore modelled from the specification (spec.md §3–§4): wires with a
global ordinal, operation nodes carrying a local matrix whose tensor‑slot
significance follows the node's own `qargs` order, a circuit DAG whose
per‑wire restrictions are total orders (represented by one topological node
list from which the per‑wire orders are derived), and the per‑block
consolidation algorithm (canonical wire order, matrix embedding and
composition, triviality policy, atomic graph substitution).

Complex scalars are modelled with exact integer real/imaginary parts
(`CQ`, Gaussian integers), the exact-arithmetic stand-in for the floating
point complex numbers of the source; the consolidation algorithm itself is
uniform in the scalar ring.
-/

/-- Modelled from the spec: a complex scalar with exact integer real and
imaginary components (a Gaussian integer), standing in for the
floating-point complex numbers used by the missing `ConsolidateBlocks`
implementation; the consolidation algorithm is uniform in the scalar
ring, and exact integer components keep every matrix computation
evaluable. -/
structure CQ where
  re : ℤ
  im : ℤ
deriving DecidableEq, Repr

namespace CQ

@[ext] theorem ext {a b : CQ} (h1 : a.re = b.re) (h2 : a.im = b.im) : a = b := by
  cases a; cases b; simp_all

instance : Zero CQ := ⟨⟨0, 0⟩⟩

@[simp] theorem zero_re : (0 : CQ).re = 0 := rfl

@[simp] theorem zero_im : (0 : CQ).im = 0 := rfl

instance : One CQ := ⟨⟨1, 0⟩⟩

@[simp] theorem one_re : (1 : CQ).re = 1 := rfl

@[simp] theorem one_im : (1 : CQ).im = 0 := rfl

instance : Add CQ := ⟨fun a b => ⟨a.re + b.re, a.im + b.im⟩⟩

@[simp] theorem add_re (a b : CQ) : (a + b).re = a.re + b.re := rfl

@[simp] theorem add_im (a b : CQ) : (a + b).im = a.im + b.im := rfl

instance : Neg CQ := ⟨fun a => ⟨-a.re, -a.im⟩⟩

@[simp] theorem neg_re (a : CQ) : (-a).re = -a.re := rfl

@[simp] theorem neg_im (a : CQ) : (-a).im = -a.im := rfl

instance : Mul CQ := ⟨fun a b => ⟨a.re * b.re - a.im * b.im, a.re * b.im + a.im * b.re⟩⟩

@[simp] theorem mul_re (a b : CQ) : (a * b).re = a.re * b.re - a.im * b.im := rfl

@[simp] theorem mul_im (a b : CQ) : (a * b).im = a.re * b.im + a.im * b.re := rfl

instance addCommGroup : AddCommGroup CQ := by
  refine
  { add := (· + ·)
    zero := (0 : CQ)
    sub := fun a b => a + -b
    neg := Neg.neg
    nsmul := @nsmulRec CQ ⟨0⟩ ⟨(· + ·)⟩
    zsmul := @zsmulRec CQ ⟨0⟩ ⟨(· + ·)⟩ ⟨Neg.neg⟩ (@nsmulRec CQ ⟨0⟩ ⟨(· + ·)⟩)
    add_assoc := ?_
    zero_add := ?_
    add_zero := ?_
    neg_add_cancel := ?_
    add_comm := ?_ } <;>
  intros <;>
  ext <;>
  simp <;>
  ring

instance : NatCast CQ := ⟨fun n => ⟨n, 0⟩⟩

@[simp] theorem natCast_re (n : ℕ) : (n : CQ).re = n := rfl

@[simp] theorem natCast_im (n : ℕ) : (n : CQ).im = 0 := rfl

instance : IntCast CQ := ⟨fun n => ⟨n, 0⟩⟩

@[simp] theorem intCast_re (n : ℤ) : (n : CQ).re = n := rfl

@[simp] theorem intCast_im (n : ℤ) : (n : CQ).im = 0 := rfl

instance addGroupWithOne : AddGroupWithOne CQ :=
  { CQ.addCommGroup with
    natCast := NatCast.natCast
    intCast := IntCast.intCast
    one := 1
    natCast_zero := by ext <;> simp
    natCast_succ := fun n => by ext <;> simp
    intCast_ofNat := fun n => by ext <;> simp
    intCast_negSucc := fun n => by ext <;> simp [Int.negSucc_eq] <;> push_cast <;> ring }

instance commRing : CommRing CQ := by
  refine
  { CQ.addGroupWithOne with
    mul := (· * ·)
    npow := @npowRec CQ ⟨1⟩ ⟨(· * ·)⟩
    add_comm := ?_
    left_distrib := ?_
    right_distrib := ?_
    zero_mul := ?_
    mul_zero := ?_
    mul_assoc := ?_
    one_mul := ?_
    mul_one := ?_
    mul_comm := ?_ } <;>
  intros <;>
  ext <;>
  simp <;>
  ring

instance : Star CQ := ⟨fun a => ⟨a.re, -a.im⟩⟩

@[simp] theorem star_re' (a : CQ) : (star a).re = a.re := rfl

@[simp] theorem star_im' (a : CQ) : (star a).im = -a.im := rfl

/-- Complex conjugation on `CQ` is a star-ring structure. -/
instance : StarRing CQ where
  star_involutive a := by ext <;> simp
  star_mul a b := by ext <;> simp <;> ring
  star_add a b := by ext <;> simp <;> ring

/-- Squared absolute value of a `CQ` scalar. -/
def normSq (z : CQ) : ℤ := z.re ^ 2 + z.im ^ 2

@[simp] theorem normSq_natCast (n : ℕ) : normSq (n : CQ) = (n : ℤ) ^ 2 := by
  simp [normSq]

end CQ

/-- Modelled from the spec: a wire is an addressable quantum or classical
bit identified by (register, index); `cls` marks classical wires.  The
global ordinal used for significance comparisons is the lexicographic
order on (classical flag, register, index). -/
structure Wire where
  cls : Bool
  reg : ℕ
  idx : ℕ
deriving DecidableEq, Repr

/-- Global wire ordinal encoded injectively into `ℕ`. -/
def Wire.ordKey (w : Wire) : ℕ := Nat.pair (cond w.cls 1 0) (Nat.pair w.reg w.idx)

/-- The global-ordinal order on wires. -/
def wireLe (a b : Wire) : Prop := a.ordKey ≤ b.ordKey

instance : DecidableRel wireLe := fun a b => inferInstanceAs (Decidable (_ ≤ _))

instance wireLe.isTotal : IsTotal Wire wireLe := ⟨fun a b => Nat.le_total a.ordKey b.ordKey⟩

instance wireLe.isTrans : IsTrans Wire wireLe := ⟨fun _ _ _ h1 h2 => Nat.le_trans h1 h2⟩

/-- Canonical wire order (spec §4.2 step 1): deduplicate and sort
ascending by global wire ordinal. -/
def canonicalOrder (ws : List Wire) : List Wire := List.insertionSort wireLe ws.dedup

theorem canonicalOrder_sorted (ws : List Wire) : (canonicalOrder ws).Sorted wireLe :=
  List.sorted_insertionSort wireLe ws.dedup

theorem canonicalOrder_perm (ws : List Wire) : (canonicalOrder ws).Perm ws.dedup :=
  List.perm_insertionSort wireLe ws.dedup

theorem canonicalOrder_nodup (ws : List Wire) : (canonicalOrder ws).Nodup :=
  (canonicalOrder_perm ws).nodup_iff.mpr (List.nodup_dedup ws)

theorem mem_canonicalOrder (ws : List Wire) (w : Wire) : w ∈ canonicalOrder ws ↔ w ∈ ws := by
  rw [(canonicalOrder_perm ws).mem_iff, List.mem_dedup]

/-! ### Matrices, bit indexing and tensor embedding -/

/-- Bit `p` of the basis index `i` (wire at position `p` of the canonical
order is the `p`-th binary digit, higher ordinal = more significant). -/
def bitAt (p i : ℕ) : ℕ := i / 2 ^ p % 2

/-- Modelled from the spec: given the list `ps` of canonical positions of a
node's own `qargs` (in the node's argument order, least significant first),
extract the node-local basis index corresponding to global index `i`. -/
def locIdx : List ℕ → ℕ → ℕ
  | [], _ => 0
  | p :: ps, i => bitAt p i + 2 * locIdx ps i

/-- Position of wire `w` in the canonical order `W`. -/
def posOf (w : Wire) (W : List Wire) : ℕ := W.findIdx fun v => decide (v = w)

/-- Modelled from the spec (§4.2 step 3): embed a local matrix `U` whose
tensor slots sit at canonical positions `ps` into the `k`-wire space;
positions not covered by `ps` act as the identity. -/
def embedMat (k : ℕ) (ps : List ℕ) (U : ℕ → ℕ → CQ) :
    Matrix (Fin (2 ^ k)) (Fin (2 ^ k)) CQ :=
  Matrix.of fun i j =>
    if ∀ p < k, p ∉ ps → bitAt p i.val = bitAt p j.val then
      U (locIdx ps i.val) (locIdx ps j.val)
    else 0

/-! ### Operation nodes and the circuit graph -/

/-- Kind of an operation node: a basic gate from the catalog, or an opaque
consolidated matrix operation. -/
inductive OpKind
  | gate
  | consolidated
deriving DecidableEq, Repr

/-- Modelled from the spec (§3 OperationNode / ConsolidatedNode): one
gate/instruction application.  `nid` is the node's identity inside its
graph; `mat` is the local matrix of the operation, whose tensor slot `t`
corresponds to `qargs[t]` (slot 0 least significant); `qargs`/`cargs` are
the quantum/classical wires it acts on, in argument order. -/
structure OpNode where
  nid : ℕ
  kind : OpKind
  mat : ℕ → ℕ → CQ
  qargs : List Wire
  cargs : List Wire

/-- All wires an operation node touches. -/
def OpNode.wires (nd : OpNode) : List Wire := nd.qargs ++ nd.cargs

/-- Whether two nodes share at least one wire (a direct dependency when one
comes before the other). -/
def touches (a b : OpNode) : Bool := a.wires.any fun w => decide (w ∈ b.wires)

/-- Modelled from the spec (§3 CircuitGraph): the DAG is determined by its
per-wire total orders, represented here by one fixed topological order of
the operation nodes (`nodes`) together with the wire set (`wires`, which
also stands for the input/output sentinel pairs, one per wire).  The
per-wire orders are recovered by filtering `nodes` by wire. -/
structure CircuitGraph where
  wires : List Wire
  nodes : List OpNode

/-- The node identities present in a graph, in topological order. -/
def CircuitGraph.nids (g : CircuitGraph) : List ℕ := g.nodes.map (·.nid)

/-- The per-wire total order of a graph: identities of the nodes touching
wire `w`, from the wire's input sentinel to its output sentinel. -/
def wireSeq (g : CircuitGraph) (w : Wire) : List ℕ :=
  (g.nodes.filter fun nd => decide (w ∈ nd.wires)).map (·.nid)

/-- The members of a block (given as a set of node identities), in the
block's topological (execution) order. -/
def blockSeq (g : CircuitGraph) (blk : List ℕ) : List OpNode :=
  g.nodes.filter fun nd => decide (nd.nid ∈ blk)

/-- Modelled from the spec (§4.2 step 1): the union of `qargs` across the
block, sorted ascending by global wire ordinal. -/
def blockWires (g : CircuitGraph) (blk : List ℕ) : List Wire :=
  canonicalOrder ((blockSeq g blk).map (·.qargs)).flatten

/-- The embedding of one node's local matrix into the block's `k`-wire
space, mapping the node's own `qargs` onto their positions within `W`. -/
def embedNode (k : ℕ) (W : List Wire) (nd : OpNode) :
    Matrix (Fin (2 ^ k)) (Fin (2 ^ k)) CQ :=
  embedMat k (nd.qargs.map (posOf · W)) nd.mat

/-- Modelled from the spec (§4.2 step 3): iterate the block's nodes in
execution order and left-multiply the running product by each node's
embedded matrix. -/
def composeBlock (k : ℕ) (W : List Wire) (nds : List OpNode) :
    Matrix (Fin (2 ^ k)) (Fin (2 ^ k)) CQ :=
  nds.foldl (fun acc nd => embedNode k W nd * acc) 1

/-- The composite matrix of a block, in the canonical basis of its sorted
wire list. -/
def consolidatedMatrix (g : CircuitGraph) (blk : List ℕ) :
    Matrix (Fin (2 ^ (blockWires g blk).length)) (Fin (2 ^ (blockWires g blk).length)) CQ :=
  composeBlock (blockWires g blk).length (blockWires g blk) (blockSeq g blk)

/-- Direct numerical simulation of a block: start from the identity
operator and apply each operation of the block, in execution order, to the
evolving operator (matrices act by left multiplication). -/
def simulateBlock (k : ℕ) (W : List Wire) :
    List OpNode → Matrix (Fin (2 ^ k)) (Fin (2 ^ k)) CQ →
      Matrix (Fin (2 ^ k)) (Fin (2 ^ k)) CQ
  | [], st => st
  | nd :: rest, st => simulateBlock k W rest (embedNode k W nd * st)

/-- The overall unitary obtained by directly simulating a block from the
identity operator. -/
def simulate (k : ℕ) (W : List Wire) (nds : List OpNode) :
    Matrix (Fin (2 ^ k)) (Fin (2 ^ k)) CQ :=
  simulateBlock k W nds 1

/-- A matrix an untyped catalog entry can hold: entries below the stated
dimension are those of `M`, everything else is zero. -/
def untype {k : ℕ} (M : Matrix (Fin (2 ^ k)) (Fin (2 ^ k)) CQ) : ℕ → ℕ → CQ :=
  fun i j => if h : i < 2 ^ k ∧ j < 2 ^ k then M ⟨i, h.1⟩ ⟨j, h.2⟩ else 0

/-- A node identity unused by the graph. -/
def freshNid (g : CircuitGraph) : ℕ := g.nids.foldr max 0 + 1

/-- Modelled from the spec (§3 ConsolidatedNode): the single node replacing
a block, with `qargs` the block's wires in canonical ascending order and
the composite matrix expressed in that basis. -/
def consolidatedNode (g : CircuitGraph) (blk : List ℕ) : OpNode :=
  { nid := freshNid g
    kind := OpKind.consolidated
    mat := untype (consolidatedMatrix g blk)
    qargs := blockWires g blk
    cargs := [] }

/-! ### Graph substitution -/

/-- Marking pass for ancestors: walking the topological list from the right,
a node is marked when it belongs to the target set `blk` or shares a wire
with an already-marked node to its right; the returned list is the marked
nodes in their original order.  The marked nodes outside `blk` are exactly
the nodes from which a dependency chain leads into the block. -/
def ancMark (blk : List ℕ) : List OpNode → List OpNode
  | [] => []
  | nd :: rest =>
    let acc := ancMark blk rest
    if decide (nd.nid ∈ blk) || acc.any fun m => touches nd m then nd :: acc else acc

/-- Identities of the nodes outside the block from which a dependency chain
leads into the block (the block's external ancestors). -/
def ancNids (g : CircuitGraph) (blk : List ℕ) : List ℕ :=
  ((ancMark blk g.nodes).map (·.nid)).filter fun n => decide (n ∉ blk)

/-- Identities of the nodes outside the block into which a dependency chain
leads from the block (the block's external descendants). -/
def descNids (g : CircuitGraph) (blk : List ℕ) : List ℕ :=
  ((ancMark blk g.nodes.reverse).map (·.nid)).filter fun n => decide (n ∉ blk)

/-- Modelled from the spec (§4.1, glossary "Contiguity"): a block is
contiguous when no node outside it both depends on a result produced inside
the block and produces a result the block depends on. -/
def Contiguous (g : CircuitGraph) (blk : List ℕ) : Prop :=
  ∀ n ∈ ancNids g blk, n ∉ descNids g blk

instance (g : CircuitGraph) (blk : List ℕ) : Decidable (Contiguous g blk) :=
  List.decidableBAll _ _

/-- Modelled from the spec (§4.1 `substitute_node_with_dag`): atomically
remove the nodes of `blk` and splice in `newNode`, placing it after every
external ancestor of the block and before every other remaining node, so
that every ordering constraint along a shared wire is preserved. -/
def substituteNodeWithDag (g : CircuitGraph) (blk : List ℕ) (newNode : OpNode) :
    CircuitGraph :=
  { wires := g.wires
    nodes :=
      (g.nodes.filter fun nd => decide (nd.nid ∈ ancNids g blk)) ++
        newNode ::
          g.nodes.filter fun nd =>
            decide (nd.nid ∉ blk) && decide (nd.nid ∉ ancNids g blk) }

/-! ### The consolidation pass -/

/-- Modelled from the spec (§4.2 step 2): a block is trivial when it
consists of exactly one node whose operation is already a basic gate. -/
def blockTrivial (g : CircuitGraph) (blk : List ℕ) : Bool :=
  match blockSeq g blk with
  | [nd] => decide (nd.kind = OpKind.gate)
  | _ => false

/-- Consolidate one block: skip it when it is trivial and consolidation is
not forced, otherwise substitute its ConsolidatedNode for its members. -/
def consolidateBlock (g : CircuitGraph) (blk : List ℕ) (force : Bool) : CircuitGraph :=
  if !force && blockTrivial g blk then g
  else substituteNodeWithDag g blk (consolidatedNode g blk)

/-- Whether two blocks of the supplied list share a node (a caller contract
violation). -/
def overlapping : List (List ℕ) → Bool
  | [] => false
  | b :: rest => (b.any fun n => rest.any fun b2 => decide (n ∈ b2)) || overlapping rest

/-- Modelled from the spec (§4.2, §7): the failure modes of the pass. -/
inductive ConsolidateError
  | conflict
  | graphStructure
  | dimension
deriving DecidableEq, Repr

/-- Modelled from the spec (§4.2 `consolidate`, §7): validate every block
first (overlap, then contiguity), and only then rewrite the graph, block by
block — all-or-nothing semantics. -/
def consolidate (g : CircuitGraph) (blocks : List (List ℕ)) (force : Bool) :
    Except ConsolidateError CircuitGraph :=
  if overlapping blocks then Except.error ConsolidateError.conflict
  else if blocks.any fun b => decide (¬Contiguous g b) then
    Except.error ConsolidateError.graphStructure
  else Except.ok (blocks.foldl (fun h b => consolidateBlock h b force) g)

/-! ### Unitarity and process fidelity -/

/-- A matrix is unitary when its conjugate transpose is its inverse. -/
def IsUnitary {n : Type} [Fintype n] [DecidableEq n] (A : Matrix n n CQ) : Prop :=
  A.conjTranspose * A = 1

instance {n : Type} [Fintype n] [DecidableEq n] (A : Matrix n n CQ) :
    Decidable (IsUnitary A) :=
  inferInstanceAs (Decidable (_ = _))

/-- Process fidelity of two same-dimension operators, `|tr(A† B)|² / d²`;
equals 1 exactly when the two unitaries agree up to global phase. -/
def processFidelity {n : Type} [Fintype n] [DecidableEq n] (A B : Matrix n n CQ) : ℚ :=
  (CQ.normSq (Matrix.trace (A.conjTranspose * B)) : ℚ) / (Fintype.card n : ℚ) ^ 2

/-! ### The gate-map plot entry point (`qiskit/visualization/gate_map.py`) -/

/-- The errors `plot_gate_map` can raise: `ImportError` when matplotlib is
missing, `QiskitError` for a simulator backend or mismatched label list. -/
inductive GateMapError
  | importError
  | qiskitError
deriving DecidableEq, Repr

/-- Abstraction of the matplotlib figure returned by `plot_gate_map`:
whether any qubit/coupling artist was drawn, and whether the axes were
turned off. -/
structure GMFigure where
  drawn : Bool
  axisOff : Bool
deriving DecidableEq, Repr

/-- The part of a backend configuration read by `plot_gate_map`. -/
structure BackendConfig where
  simulator : Bool
  n_qubits : ℕ
  coupling_map : List (List ℕ)
deriving DecidableEq, Repr

/-- The qubit counts that have a preset grid layout in `plot_gate_map`
(`mpl_data` keys, in insertion order 20, 14, 16, 5). -/
def mplDataSizes : List ℕ := [20, 14, 16, 5]

/-- Control flow of `plot_gate_map` (gate_map.py lines 93-133): check
matplotlib, reject simulators with `QiskitError`, validate an explicitly
supplied label list, and for a qubit count without a preset layout return
an empty figure with the axes turned off; otherwise draw the device map
(abstracted to a non-empty figure with the axes turned off). -/
def plot_gate_map (hasMatplotlib : Bool) (cfg : BackendConfig)
    (qubit_labels : Option (List ℕ)) : Except GateMapError GMFigure :=
  if !hasMatplotlib then Except.error GateMapError.importError
  else if cfg.simulator then Except.error GateMapError.qiskitError
  else
    match qubit_labels with
    | some ls =>
      if ls.length ≠ cfg.n_qubits then Except.error GateMapError.qiskitError
      else if cfg.n_qubits ∈ mplDataSizes then Except.ok ⟨true, true⟩
      else Except.ok ⟨false, true⟩
    | none =>
      if cfg.n_qubits ∈ mplDataSizes then Except.ok ⟨true, true⟩
      else Except.ok ⟨false, true⟩

/-! ### Concrete instances used to exercise the pass -/

/-- Quantum wire 0 of register 0. -/
def wA0 : Wire := ⟨false, 0, 0⟩

/-- Quantum wire 1 of register 0. -/
def wA1 : Wire := ⟨false, 0, 1⟩

/-- Quantum wire 0 of register 1 (a second register). -/
def wB0 : Wire := ⟨false, 1, 0⟩

/-- Classical wire 0 of classical register 0. -/
def wC0 : Wire := ⟨true, 0, 0⟩

/-- The local controlled-NOT matrix with the control on tensor slot 0
(`qargs[0]`) and the target on slot 1, as the catalog defines it. -/
def cxMat : ℕ → ℕ → CQ := fun i j =>
  if (i = 0 ∧ j = 0) ∨ (i = 3 ∧ j = 1) ∨ (i = 2 ∧ j = 2) ∨ (i = 1 ∧ j = 3) then 1 else 0

/-- The local NOT matrix. -/
def xMat : ℕ → ℕ → CQ := fun i j =>
  if (i = 0 ∧ j = 1) ∨ (i = 1 ∧ j = 0) then 1 else 0

/-- An identity local matrix (used for `id`-style placeholder gates). -/
def idMat : ℕ → ℕ → CQ := fun i j => if i = j then 1 else 0

/-- The canonical controlled-NOT matrix `[[1,0,0,0],[0,1,0,0],[0,0,0,1],[0,0,1,0]]`
expected when the control wire has the higher ordinal. -/
def canonCX : ℕ → ℕ → CQ := fun i j =>
  if (i = 0 ∧ j = 0) ∨ (i = 1 ∧ j = 1) ∨ (i = 2 ∧ j = 3) ∨ (i = 3 ∧ j = 2) then 1 else 0

/-- A two-wire graph holding one controlled-NOT whose `qargs` list the
higher-ordinal wire (control) first (test_wire_order). -/
def gWireOrder : CircuitGraph :=
  ⟨[wA0, wA1], [⟨0, OpKind.gate, cxMat, [wA1, wA0], []⟩]⟩

/-- A three-wire, two-register graph with a block of three gates
(test_3q_blocks / test_block_spanning_two_regs). -/
def gThreeQ : CircuitGraph :=
  ⟨[wA0, wA1, wB0],
    [⟨0, OpKind.gate, xMat, [wA0], []⟩,
      ⟨1, OpKind.gate, cxMat, [wA1, wB0], []⟩,
      ⟨2, OpKind.gate, cxMat, [wA0, wA1], []⟩]⟩

/-- The measure-before-block graph of test_node_added_before_block: an
outside measure on wire 1 precedes two members of the `[id, cx, id]`
block on that wire. -/
def gBefore : CircuitGraph :=
  ⟨[wA0, wA1, wC0],
    [⟨0, OpKind.gate, idMat, [wA0], []⟩,
      ⟨1, OpKind.gate, idMat, [wA1], [wC0]⟩,
      ⟨2, OpKind.gate, cxMat, [wA1, wA0], []⟩,
      ⟨3, OpKind.gate, idMat, [wA1], []⟩]⟩

/-- Quantum wires 0-3 of register 0, for the four-block example. -/
def wQ : ℕ → Wire := fun i => ⟨false, 0, i⟩

/-- The four-blocks-around-a-swap graph of test_node_middle_of_blocks. -/
def gMiddle : CircuitGraph :=
  ⟨[wQ 0, wQ 1, wQ 2, wQ 3],
    [⟨0, OpKind.gate, cxMat, [wQ 0, wQ 1], []⟩,
      ⟨1, OpKind.gate, cxMat, [wQ 3, wQ 2], []⟩,
      ⟨2, OpKind.gate, idMat, [wQ 1], []⟩,
      ⟨3, OpKind.gate, idMat, [wQ 2], []⟩,
      ⟨4, OpKind.gate, cxMat, [wQ 1, wQ 2], []⟩,
      ⟨5, OpKind.gate, idMat, [wQ 1], []⟩,
      ⟨6, OpKind.gate, idMat, [wQ 2], []⟩,
      ⟨7, OpKind.gate, cxMat, [wQ 0, wQ 1], []⟩,
      ⟨8, OpKind.gate, cxMat, [wQ 3, wQ 2], []⟩]⟩

/-- The four node-disjoint blocks of test_node_middle_of_blocks. -/
def middleBlocks : List (List ℕ) := [[0, 2], [1, 3], [5, 7], [6, 8]]

/-- A graph on which the block `[0, 2]` is not contiguous: node 1 outside
the block depends on node 0 and node 2 depends on node 1. -/
def gSandwich : CircuitGraph :=
  ⟨[wA0, wA1],
    [⟨0, OpKind.gate, xMat, [wA0], []⟩,
      ⟨1, OpKind.gate, cxMat, [wA0, wA1], []⟩,
      ⟨2, OpKind.gate, xMat, [wA1], []⟩]⟩

/-! ### Composition lemmas -/

theorem foldl_mul_eq_prod {α : Type} [Monoid α] (f : OpNode → α) (l : List OpNode) (a : α) :
    l.foldl (fun acc nd => f nd * acc) a = (l.map f).reverse.prod * a := by
  induction l generalizing a with
  | nil => simp
  | cons nd rest ih =>
    simp only [List.foldl_cons, List.map_cons, List.reverse_cons, List.prod_append,
      List.prod_cons, List.prod_nil, ih (f nd * a)]
    rw [mul_one, mul_assoc]

/-- The running left-multiplication fold computes the reversed product of
the embedded matrices: the node executed first is the rightmost factor. -/
theorem composeBlock_eq_reverse_prod (k : ℕ) (W : List Wire) (nds : List OpNode) :
    composeBlock k W nds = (nds.map (embedNode k W)).reverse.prod := by
  unfold composeBlock
  rw [foldl_mul_eq_prod, mul_one]

theorem simulateBlock_eq_foldl (k : ℕ) (W : List Wire) (nds : List OpNode)
    (st : Matrix (Fin (2 ^ k)) (Fin (2 ^ k)) CQ) :
    simulateBlock k W nds st = nds.foldl (fun acc nd => embedNode k W nd * acc) st := by
  induction nds generalizing st with
  | nil => rfl
  | cons nd rest ih => simp only [simulateBlock, List.foldl_cons, ih]

/-- Direct simulation of a block from the identity operator computes
exactly the composite matrix the consolidation pass builds. -/
theorem simulate_eq_composeBlock (k : ℕ) (W : List Wire) (nds : List OpNode) :
    simulate k W nds = composeBlock k W nds := by
  rw [simulate, simulateBlock_eq_foldl]; rfl

/-! ### Process fidelity -/

theorem processFidelity_self {n : Type} [Fintype n] [DecidableEq n]
    (A : Matrix n n CQ) (h : IsUnitary A) (hc : 0 < Fintype.card n) :
    processFidelity A A = 1 := by
  unfold processFidelity
  unfold IsUnitary at h
  rw [h, Matrix.trace_one, CQ.normSq_natCast]
  push_cast
  rw [div_self]
  exact pow_ne_zero _ (by exact_mod_cast hc.ne')

/-- The spec's numeric tolerance on process fidelity. -/
def fidelityTolerance : ℚ := 1 - 1 / 10 ^ 7

theorem processFidelity_self_ge {n : Type} [Fintype n] [DecidableEq n]
    (A : Matrix n n CQ) (h : IsUnitary A) (hc : 0 < Fintype.card n) :
    fidelityTolerance ≤ processFidelity A A := by
  rw [processFidelity_self A h hc]
  norm_num [fidelityTolerance]

/-! ### Embedding a canonically ordered node is the identity embedding -/

theorem posOf_cons_self (w : Wire) (l : List Wire) : posOf w (w :: l) = 0 := by
  simp [posOf, List.findIdx_cons]

theorem posOf_cons_ne (w a : Wire) (l : List Wire) (h : w ≠ a) :
    posOf w (a :: l) = posOf w l + 1 := by
  simp [posOf, List.findIdx_cons, Ne.symm h]

theorem map_posOf_self (W : List Wire) (h : W.Nodup) :
    W.map (posOf · W) = List.range W.length := by
  induction W with
  | nil => rfl
  | cons a l ih =>
    rcases List.nodup_cons.mp h with ⟨ha, hl⟩
    have tail : ∀ x ∈ l, posOf x (a :: l) = posOf x l + 1 := fun x hx =>
      posOf_cons_ne x a l (fun e => ha (e ▸ hx))
    calc (a :: l).map (posOf · (a :: l))
        = posOf a (a :: l) :: l.map (posOf · (a :: l)) := by simp
      _ = 0 :: l.map (fun x => posOf x l + 1) := by
          rw [posOf_cons_self, List.map_congr_left tail]
      _ = 0 :: (l.map (posOf · l)).map (· + 1) := by rw [List.map_map]; rfl
      _ = 0 :: (List.range l.length).map (· + 1) := by rw [ih hl]
      _ = List.range (l.length + 1) := by
          rw [List.range_succ_eq_map]

theorem bitAt_succ (p i : ℕ) : bitAt (p + 1) i = bitAt p (i / 2) := by
  unfold bitAt
  rw [Nat.pow_succ, Nat.mul_comm, ← Nat.div_div_eq_div_mul]

theorem locIdx_map_succ (ps : List ℕ) (i : ℕ) :
    locIdx (ps.map (· + 1)) i = locIdx ps (i / 2) := by
  induction ps with
  | nil => rfl
  | cons p ps ih => simp only [List.map_cons, locIdx, bitAt_succ, ih]

theorem locIdx_range (k i : ℕ) (h : i < 2 ^ k) : locIdx (List.range k) i = i := by
  induction k generalizing i with
  | zero =>
    interval_cases i
    rfl
  | succ k ih =>
    rw [List.range_succ_eq_map]
    have hmap : (List.range k).map Nat.succ = (List.range k).map (· + 1) := by
      simp [Nat.succ_eq_add_one]
    show bitAt 0 i + 2 * locIdx ((List.range k).map Nat.succ) i = i
    have hi : i / 2 < 2 ^ k := by
      rw [Nat.pow_succ] at h
      omega
    rw [hmap, locIdx_map_succ, ih (i / 2) hi]
    show i / 2 ^ 0 % 2 + 2 * (i / 2) = i
    rw [Nat.pow_zero, Nat.div_one]
    omega


theorem embedMat_range_apply (k : ℕ) (U : ℕ → ℕ → CQ) (i j : Fin (2 ^ k)) :
    embedMat k (List.range k) U i j = U i.val j.val := by
  unfold embedMat
  rw [Matrix.of_apply, if_pos, locIdx_range k i.val i.isLt, locIdx_range k j.val j.isLt]
  intro p hp hmem
  exact absurd (List.mem_range.mpr hp) hmem

/-- A node whose `qargs` are exactly the canonical order embeds to its own
matrix: re-deriving a consolidated node's matrix changes nothing. -/
theorem embedNode_self (W : List Wire) (hW : W.Nodup) (nd : OpNode) (hq : nd.qargs = W)
    (i j : Fin (2 ^ W.length)) :
    embedNode W.length W nd i j = nd.mat i.val j.val := by
  unfold embedNode
  rw [hq, map_posOf_self W hW]
  exact embedMat_range_apply W.length nd.mat i j

theorem composeBlock_singleton (k : ℕ) (W : List Wire) (nd : OpNode) :
    composeBlock k W [nd] = embedNode k W nd := by
  show embedNode k W nd * 1 = embedNode k W nd
  rw [mul_one]

/-! ### Properties of the ancestor marking -/

theorem ancMark_cons (blk : List ℕ) (nd : OpNode) (rest : List OpNode) :
    ancMark blk (nd :: rest) =
      if decide (nd.nid ∈ blk) || (ancMark blk rest).any (fun m => touches nd m) then
        nd :: ancMark blk rest
      else ancMark blk rest := rfl

theorem ancMark_sublist (blk : List ℕ) (l : List OpNode) : (ancMark blk l).Sublist l := by
  induction l with
  | nil => exact List.Sublist.refl _
  | cons nd rest ih =>
    rw [ancMark_cons]
    by_cases h : (decide (nd.nid ∈ blk) || (ancMark blk rest).any fun m => touches nd m) = true
    · rw [if_pos h]
      exact ih.cons₂ nd
    · rw [if_neg h]
      exact ih.cons nd

theorem mem_ancMark_cons (blk : List ℕ) (a : OpNode) (l : List OpNode) {x : OpNode}
    (h : x ∈ ancMark blk l) : x ∈ ancMark blk (a :: l) := by
  rw [ancMark_cons]
  by_cases hc : (decide (a.nid ∈ blk) || (ancMark blk l).any fun m => touches a m) = true
  · rw [if_pos hc]
    exact List.mem_cons_of_mem a h
  · rw [if_neg hc]
    exact h

theorem mem_ancMark_append (blk : List ℕ) (l₁ l₂ : List OpNode) {x : OpNode}
    (h : x ∈ ancMark blk l₂) : x ∈ ancMark blk (l₁ ++ l₂) := by
  induction l₁ with
  | nil => exact h
  | cons a t ih => exact mem_ancMark_cons blk a (t ++ l₂) ih

theorem mem_ancMark_self (blk : List ℕ) (l : List OpNode) {nd : OpNode}
    (hmem : nd ∈ l) (hb : nd.nid ∈ blk) : nd ∈ ancMark blk l := by
  induction l with
  | nil => cases hmem
  | cons a rest ih =>
    rcases List.mem_cons.mp hmem with rfl | h
    · rw [ancMark_cons, if_pos (by simp [hb])]
      exact List.mem_cons_self _ _
    · exact mem_ancMark_cons blk a rest (ih h)

theorem mem_ancMark_touches (blk : List ℕ) (a : OpNode) (l : List OpNode) {m : OpNode}
    (hm : m ∈ ancMark blk l) (ht : touches a m = true) : a ∈ ancMark blk (a :: l) := by
  have hany : (ancMark blk l).any (fun x => touches a x) = true :=
    List.any_eq_true.mpr ⟨m, hm, ht⟩
  rw [ancMark_cons, if_pos (by simp [hany])]
  exact List.mem_cons_self _ _

theorem ancMark_append (blk : List ℕ) (l₁ l₂ : List OpNode) :
    ∃ s, ancMark blk (l₁ ++ l₂) = s ++ ancMark blk l₂ ∧ s.Sublist l₁ := by
  induction l₁ with
  | nil => exact ⟨[], rfl, List.Sublist.refl _⟩
  | cons a t ih =>
    obtain ⟨s, hs, hsub⟩ := ih
    rw [List.cons_append, ancMark_cons, hs]
    by_cases h :
        (decide (a.nid ∈ blk) || (s ++ ancMark blk l₂).any fun m => touches a m) = true
    · rw [if_pos h]
      exact ⟨a :: s, rfl, hsub.cons₂ a⟩
    · rw [if_neg h]
      exact ⟨s, rfl, hsub.cons a⟩

theorem touches_of_shared {a b : OpNode} {w : Wire} (ha : w ∈ a.wires) (hb : w ∈ b.wires) :
    touches a b = true :=
  List.any_eq_true.mpr ⟨w, ha, by simp [hb]⟩

/-- Ancestor marking is closed under stepping to an earlier node that
shares a wire with a marked node. -/
theorem ancMark_closed (blk : List ℕ) {l₁ l₂ : List OpNode} {a b : OpNode}
    (hN : (List.map OpNode.nid (l₁ ++ a :: l₂)).Nodup)
    (hb : b ∈ l₂) (htouch : touches a b = true)
    (hmark : b ∈ ancMark blk (l₁ ++ a :: l₂)) : a ∈ ancMark blk (l₁ ++ a :: l₂) := by
  obtain ⟨s, hs, hsub⟩ := ancMark_append blk l₁ (a :: l₂)
  rw [hs] at hmark
  rcases List.mem_append.mp hmark with hbs | hbtail
  · exfalso
    have hb1 : b ∈ l₁ := hsub.subset hbs
    rw [List.map_append, List.nodup_append] at hN
    exact hN.2.2 (List.mem_map_of_mem _ hb1)
      (List.mem_map_of_mem _ (List.mem_cons_of_mem a hb))
  · rcases List.mem_cons.mp (by
        rw [ancMark_cons] at hbtail
        by_cases hc :
            (decide (a.nid ∈ blk) || (ancMark blk l₂).any fun m => touches a m) = true
        · rw [if_pos hc] at hbtail
          exact hbtail
        · rw [if_neg hc] at hbtail
          exact List.mem_cons_of_mem a hbtail) with hba | hbanc
    · exfalso
      rw [List.map_append, List.nodup_append] at hN
      have : a.nid ∈ List.map OpNode.nid (a :: l₂) := List.mem_map_of_mem _ (List.mem_cons_self a l₂)
      have hdup : (List.map OpNode.nid (a :: l₂)).Nodup := hN.2.1
      rw [List.map_cons, List.nodup_cons] at hdup
      exact hdup.1 (hba ▸ List.mem_map_of_mem OpNode.nid hb)
    · exact mem_ancMark_append blk l₁ (a :: l₂)
        (mem_ancMark_touches blk a l₂ hbanc htouch)

/-! ### Sublist helpers for per-wire order reasoning -/

theorem sublist_pair_split {α : Type} {a b : α} {l : List α} (h : [a, b].Sublist l) :
    ∃ l₁ l₂ l₃, l = l₁ ++ a :: (l₂ ++ b :: l₃) := by
  induction l with
  | nil => cases h
  | cons x t ih =>
    cases h with
    | cons c h' =>
      obtain ⟨l₁, l₂, l₃, rfl⟩ := ih h'
      exact ⟨x :: l₁, l₂, l₃, rfl⟩
    | cons₂ c h' =>
      have hb : b ∈ t := List.singleton_sublist.mp h'
      obtain ⟨l₂, l₃, rfl⟩ := List.append_of_mem hb
      exact ⟨[], l₂, l₃, rfl⟩

theorem pair_sublist_of_split {α : Type} (a b : α) (l₁ l₂ l₃ : List α) :
    [a, b].Sublist (l₁ ++ a :: (l₂ ++ b :: l₃)) :=
  List.sublist_append_of_sublist_right
    ((List.singleton_sublist.mpr (List.mem_append_right l₂ (List.mem_cons_self b l₃))).cons₂ a)

theorem pair_sublist_left {α : Type} {x c : α} {P S : List α} (h : x ∈ P) :
    [x, c].Sublist (P ++ c :: S) := by
  obtain ⟨p₁, p₂, rfl⟩ := List.append_of_mem h
  rw [List.append_assoc, List.cons_append]
  exact List.sublist_append_of_sublist_right
    ((List.singleton_sublist.mpr (List.mem_append_right p₂ (List.mem_cons_self c S))).cons₂ x)

theorem pair_sublist_right {α : Type} {x c : α} {P S : List α} (h : x ∈ S) :
    [c, x].Sublist (P ++ c :: S) :=
  List.sublist_append_of_sublist_right ((List.singleton_sublist.mpr h).cons₂ c)

theorem sublist_pair_map {x y : ℕ} {L : List OpNode}
    (h : [x, y].Sublist (L.map OpNode.nid)) :
    ∃ l₁ a l₂ b l₃, L = l₁ ++ a :: (l₂ ++ b :: l₃) ∧ OpNode.nid a = x ∧ OpNode.nid b = y := by
  induction L with
  | nil => simp at h
  | cons nd t ih =>
    rw [List.map_cons] at h
    cases h with
    | cons c h' =>
      obtain ⟨l₁, a, l₂, b, l₃, rfl, hx, hy⟩ := ih h'
      exact ⟨nd :: l₁, a, l₂, b, l₃, rfl, hx, hy⟩
    | cons₂ c h' =>
      have hy : y ∈ t.map OpNode.nid := List.singleton_sublist.mp h'
      obtain ⟨b, hbt, hby⟩ := List.mem_map.mp hy
      obtain ⟨l₂, l₃, rfl⟩ := List.append_of_mem hbt
      exact ⟨[], nd, l₂, b, l₃, rfl, rfl, hby⟩

/-! ### Per-wire order facts about the marking -/

/-- The nodes of `g` that touch wire `w`, in topological order. -/
def wireNodes (g : CircuitGraph) (w : Wire) : List OpNode :=
  g.nodes.filter fun nd => decide (w ∈ nd.wires)

theorem wireSeq_eq_map (g : CircuitGraph) (w : Wire) :
    wireSeq g w = (wireNodes g w).map OpNode.nid := rfl

theorem mem_ancNids_iff (g : CircuitGraph) (blk : List ℕ) (x : ℕ) :
    x ∈ ancNids g blk ↔ (∃ nd ∈ ancMark blk g.nodes, OpNode.nid nd = x) ∧ x ∉ blk := by
  unfold ancNids
  rw [List.mem_filter, List.mem_map]
  simp

theorem mem_descNids_iff (g : CircuitGraph) (blk : List ℕ) (x : ℕ) :
    x ∈ descNids g blk ↔
      (∃ nd ∈ ancMark blk g.nodes.reverse, OpNode.nid nd = x) ∧ x ∉ blk := by
  unfold descNids
  rw [List.mem_filter, List.mem_map]
  simp

/-- Decompose a pair in per-wire order into a split of the node list with
both nodes touching the wire. -/
theorem wire_order_split {g : CircuitGraph} {w : Wire} {x y : ℕ}
    (h : [x, y].Sublist (wireSeq g w)) :
    ∃ l₁ a l₂ b l₃, g.nodes = l₁ ++ a :: (l₂ ++ b :: l₃) ∧
      OpNode.nid a = x ∧ OpNode.nid b = y ∧ w ∈ OpNode.wires a ∧ w ∈ OpNode.wires b := by
  rw [wireSeq_eq_map] at h
  obtain ⟨m₁, a, m₂, b, m₃, hsplit, hx, hy⟩ := sublist_pair_map h
  have ha : a ∈ wireNodes g w := by
    rw [hsplit]
    exact List.mem_append_right m₁ (List.mem_cons_self a _)
  have hb : b ∈ wireNodes g w := by
    rw [hsplit]
    exact List.mem_append_right m₁
      (List.mem_cons_of_mem a (List.mem_append_right m₂ (List.mem_cons_self b m₃)))
  have hwa : w ∈ OpNode.wires a := by
    have := (List.mem_filter.mp ha).2
    simpa using this
  have hwb : w ∈ OpNode.wires b := by
    have := (List.mem_filter.mp hb).2
    simpa using this
  have hpair : [a, b].Sublist g.nodes :=
    ((hsplit ▸ pair_sublist_of_split a b m₁ m₂ m₃ :
        [a, b].Sublist (wireNodes g w))).trans (List.filter_sublist g.nodes)
  obtain ⟨l₁, l₂, l₃, hl⟩ := sublist_pair_split hpair
  exact ⟨l₁, a, l₂, b, l₃, hl, hx, hy, hwa, hwb⟩

/-- A node in wire order before a marked node (sharing that wire) is
itself marked: the marking is closed under wire-order predecessors. -/
theorem anc_of_before_marked {g : CircuitGraph} {blk : List ℕ} {w : Wire} {x y : ℕ}
    (HN : g.nids.Nodup) (h : [x, y].Sublist (wireSeq g w))
    (hy : ∃ nd ∈ ancMark blk g.nodes, OpNode.nid nd = y) (hx : x ∉ blk) :
    x ∈ ancNids g blk := by
  obtain ⟨l₁, a, l₂, b, l₃, hsplit, hxa, hyb, hwa, hwb⟩ := wire_order_split h
  obtain ⟨nd, hndmark, hndy⟩ := hy
  have hndg : nd ∈ g.nodes := (ancMark_sublist blk g.nodes).subset hndmark
  have hbg : b ∈ g.nodes := by
    rw [hsplit]
    exact List.mem_append_right l₁
      (List.mem_cons_of_mem a (List.mem_append_right l₂ (List.mem_cons_self b l₃)))
  have hnd_eq : nd = b := by
    have hnids : (g.nodes.map OpNode.nid).Nodup := HN
    exact List.inj_on_of_nodup_map hnids hndg hbg (by rw [hndy, hyb])
  have hbmark : b ∈ ancMark blk g.nodes := hnd_eq ▸ hndmark
  have hamark : a ∈ ancMark blk g.nodes := by
    have hnodes : (List.map OpNode.nid (l₁ ++ a :: (l₂ ++ b :: l₃))).Nodup := by
      rw [← hsplit]
      exact HN
    rw [hsplit]
    exact ancMark_closed blk hnodes
      (List.mem_append_right l₂ (List.mem_cons_self b l₃))
      (touches_of_shared hwa hwb) (hsplit ▸ hbmark)
  rw [mem_ancNids_iff]
  exact ⟨⟨a, hamark, hxa⟩, hx⟩

/-- The reversed graph: same wires, reversed topological order.  Its
ancestor marking is this graph's descendant marking. -/
def reverseGraph (g : CircuitGraph) : CircuitGraph := ⟨g.wires, g.nodes.reverse⟩

theorem wireSeq_reverseGraph (g : CircuitGraph) (w : Wire) :
    wireSeq (reverseGraph g) w = (wireSeq g w).reverse := by
  unfold wireSeq reverseGraph
  rw [List.filter_reverse, List.map_reverse]

theorem ancNids_reverseGraph (g : CircuitGraph) (blk : List ℕ) :
    ancNids (reverseGraph g) blk = descNids g blk := rfl

theorem nids_reverseGraph (g : CircuitGraph) (HN : g.nids.Nodup) :
    (reverseGraph g).nids.Nodup := by
  unfold CircuitGraph.nids reverseGraph
  rw [List.map_reverse, List.nodup_reverse]
  exact HN

/-- A node in wire order after a marked-in-reverse node (sharing that
wire) is a descendant of the block. -/
theorem desc_of_after_marked {g : CircuitGraph} {blk : List ℕ} {w : Wire} {x y : ℕ}
    (HN : g.nids.Nodup) (h : [y, x].Sublist (wireSeq g w))
    (hy : ∃ nd ∈ ancMark blk g.nodes.reverse, OpNode.nid nd = y) (hx : x ∉ blk) :
    x ∈ descNids g blk := by
  rw [← ancNids_reverseGraph]
  have h2 : [x, y].Sublist (wireSeq (reverseGraph g) w) := by
    rw [wireSeq_reverseGraph]
    simpa using List.Sublist.reverse h
  exact anc_of_before_marked (nids_reverseGraph g HN) h2 hy hx

/-! ### Class decomposition of a per-wire order -/

theorem pairwise_class_decomp (c : ℕ → ℕ) (l : List ℕ) (hc : ∀ x ∈ l, c x ≤ 2)
    (hs : l.Pairwise fun a b => c a ≤ c b) :
    l = l.filter (fun x => decide (c x = 0)) ++ l.filter (fun x => decide (c x = 1)) ++
      l.filter (fun x => decide (c x = 2)) := by
  induction l with
  | nil => rfl
  | cons a t ih =>
    have hpa : ∀ b ∈ t, c a ≤ c b := (List.pairwise_cons.mp hs).1
    have hpt : t.Pairwise fun a b => c a ≤ c b := (List.pairwise_cons.mp hs).2
    have hct : ∀ x ∈ t, c x ≤ 2 := fun x hx => hc x (List.mem_cons_of_mem a hx)
    have hca : c a ≤ 2 := hc a (List.mem_cons_self a t)
    have iht := ih hct hpt
    rcases (by omega : c a = 0 ∨ c a = 1 ∨ c a = 2) with h | h | h
    · have e0 : (a :: t).filter (fun x => decide (c x = 0)) =
          a :: t.filter (fun x => decide (c x = 0)) := by simp [List.filter_cons, h]
      have e1 : (a :: t).filter (fun x => decide (c x = 1)) =
          t.filter (fun x => decide (c x = 1)) := by simp [List.filter_cons, h]
      have e2 : (a :: t).filter (fun x => decide (c x = 2)) =
          t.filter (fun x => decide (c x = 2)) := by simp [List.filter_cons, h]
      rw [e0, e1, e2, List.cons_append, List.cons_append]
      exact congrArg (a :: ·) iht
    · have hf0 : t.filter (fun x => decide (c x = 0)) = [] :=
        List.filter_eq_nil_iff.mpr fun b hb => by
          have := hpa b hb
          simp only [decide_eq_true_eq]
          omega
      have e0 : (a :: t).filter (fun x => decide (c x = 0)) = [] := by
        simp [List.filter_cons, h, hf0]
      have e1 : (a :: t).filter (fun x => decide (c x = 1)) =
          a :: t.filter (fun x => decide (c x = 1)) := by simp [List.filter_cons, h]
      have e2 : (a :: t).filter (fun x => decide (c x = 2)) =
          t.filter (fun x => decide (c x = 2)) := by simp [List.filter_cons, h]
      rw [e0, e1, e2, List.nil_append, List.cons_append]
      rw [hf0, List.nil_append] at iht
      exact congrArg (a :: ·) iht
    · have hf0 : t.filter (fun x => decide (c x = 0)) = [] :=
        List.filter_eq_nil_iff.mpr fun b hb => by
          have := hpa b hb
          simp only [decide_eq_true_eq]
          omega
      have hf1 : t.filter (fun x => decide (c x = 1)) = [] :=
        List.filter_eq_nil_iff.mpr fun b hb => by
          have := hpa b hb
          simp only [decide_eq_true_eq]
          omega
      have e0 : (a :: t).filter (fun x => decide (c x = 0)) = [] := by
        simp [List.filter_cons, h, hf0]
      have e1 : (a :: t).filter (fun x => decide (c x = 1)) = [] := by
        simp [List.filter_cons, h, hf1]
      have e2 : (a :: t).filter (fun x => decide (c x = 2)) =
          a :: t.filter (fun x => decide (c x = 2)) := by simp [List.filter_cons, h]
      rw [e0, e1, e2, List.nil_append, List.nil_append]
      rw [hf0, hf1, List.nil_append, List.nil_append] at iht
      exact congrArg (a :: ·) iht

/-- Ordering class of a node identity relative to a block: external
ancestors come first, then the block itself, then everything else. -/
def classOf (g : CircuitGraph) (blk : List ℕ) (x : ℕ) : ℕ :=
  if x ∈ ancNids g blk then 0 else if x ∈ blk then 1 else 2

theorem not_mem_blk_of_mem_ancNids {g : CircuitGraph} {blk : List ℕ} {x : ℕ}
    (h : x ∈ ancNids g blk) : x ∉ blk := ((mem_ancNids_iff g blk x).mp h).2

/-- Along any wire of a contiguous block, the order of the touched nodes
respects the ancestor / block / rest classification. -/
theorem wireSeq_pairwise_class (g : CircuitGraph) (blk : List ℕ) (w : Wire)
    (HN : g.nids.Nodup) (HC : Contiguous g blk) :
    (wireSeq g w).Pairwise fun a b => classOf g blk a ≤ classOf g blk b := by
  rw [List.pairwise_iff_forall_sublist]
  intro x y hxy
  by_cases hya : y ∈ ancNids g blk
  · have hxanc : x ∈ ancNids g blk := by
      by_cases hxb : x ∈ blk
      · exfalso
        obtain ⟨l₁, a, l₂, b, l₃, hsplit, hxa', hyb', hwa, hwb⟩ := wire_order_split hxy
        have hag : a ∈ g.nodes := by
          rw [hsplit]
          exact List.mem_append_right l₁ (List.mem_cons_self a _)
        have hmark : a ∈ ancMark blk g.nodes.reverse :=
          mem_ancMark_self blk _ (List.mem_reverse.mpr hag) (hxa' ▸ hxb)
        have hydesc : y ∈ descNids g blk :=
          desc_of_after_marked HN hxy ⟨a, hmark, hxa'⟩ (not_mem_blk_of_mem_ancNids hya)
        exact HC y hya hydesc
      · exact anc_of_before_marked HN hxy ((mem_ancNids_iff g blk y).mp hya).1 hxb
    unfold classOf
    simp [hxanc]
  · by_cases hyb : y ∈ blk
    · by_cases hxb : x ∈ blk
      · unfold classOf
        split_ifs <;> omega
      · have hxanc : x ∈ ancNids g blk := by
          obtain ⟨l₁, a, l₂, b, l₃, hsplit, hxa', hyb', hwa, hwb⟩ := wire_order_split hxy
          have hbg : b ∈ g.nodes := by
            rw [hsplit]
            exact List.mem_append_right l₁
              (List.mem_cons_of_mem a (List.mem_append_right l₂ (List.mem_cons_self b l₃)))
          exact anc_of_before_marked HN hxy
            ⟨b, mem_ancMark_self blk _ hbg (hyb' ▸ hyb), hyb'⟩ hxb
        unfold classOf
        simp [hxanc]
    · unfold classOf
      split_ifs <;> omega

/-- The ancestor / block / rest decomposition of every per-wire order of a
graph around a contiguous block. -/
theorem wireSeq_decomp (g : CircuitGraph) (blk : List ℕ) (w : Wire)
    (HN : g.nids.Nodup) (HC : Contiguous g blk) :
    wireSeq g w =
      (wireSeq g w).filter (fun x => decide (x ∈ ancNids g blk)) ++
        (wireSeq g w).filter (fun x => decide (x ∈ blk)) ++
        (wireSeq g w).filter (fun x => decide (x ∉ blk) && decide (x ∉ ancNids g blk)) := by
  have hd := pairwise_class_decomp (classOf g blk) (wireSeq g w)
    (fun x _ => by unfold classOf; split_ifs <;> omega)
    (wireSeq_pairwise_class g blk w HN HC)
  have e0 : (wireSeq g w).filter (fun x => decide (classOf g blk x = 0)) =
      (wireSeq g w).filter (fun x => decide (x ∈ ancNids g blk)) :=
    List.filter_congr fun x _ => by
      unfold classOf
      split_ifs with h1 h2 <;> simp [h1]
  have e1 : (wireSeq g w).filter (fun x => decide (classOf g blk x = 1)) =
      (wireSeq g w).filter (fun x => decide (x ∈ blk)) :=
    List.filter_congr fun x _ => by
      unfold classOf
      split_ifs with h1 h2
      · simp [not_mem_blk_of_mem_ancNids h1]
      · simp [h2]
      · simp [h2]
  have e2 : (wireSeq g w).filter (fun x => decide (classOf g blk x = 2)) =
      (wireSeq g w).filter (fun x => decide (x ∉ blk) && decide (x ∉ ancNids g blk)) :=
    List.filter_congr fun x _ => by
      unfold classOf
      split_ifs with h1 h2
      · simp [h1]
      · simp [h2]
      · simp [h1, h2]
  rw [e0, e1, e2] at hd
  exact hd

/-! ### The per-wire effect of substitution -/

theorem filter_swap {α : Type} (p q : α → Bool) (l : List α) :
    List.filter p (List.filter q l) = List.filter q (List.filter p l) := by
  rw [List.filter_filter, List.filter_filter]
  exact List.filter_congr fun x _ => Bool.and_comm _ _

theorem map_nid_filter_nid_pred (p : ℕ → Bool) (l : List OpNode) :
    (l.filter fun nd => p nd.nid).map OpNode.nid = (l.map OpNode.nid).filter p := by
  rw [List.filter_map]
  rfl

/-- What substitution does to each per-wire order: the external ancestors
of the block keep their order in front, the new node sits in the middle
exactly when it touches the wire, and the remaining outside nodes keep
their order behind. -/
theorem wireSeq_subst (g : CircuitGraph) (blk : List ℕ) (C : OpNode) (w : Wire) :
    wireSeq (substituteNodeWithDag g blk C) w =
      (wireSeq g w).filter (fun x => decide (x ∈ ancNids g blk)) ++
        (if w ∈ OpNode.wires C then
          C.nid :: (wireSeq g w).filter (fun x => decide (x ∉ blk) && decide (x ∉ ancNids g blk))
        else
          (wireSeq g w).filter (fun x => decide (x ∉ blk) && decide (x ∉ ancNids g blk))) := by
  have hnodes : (substituteNodeWithDag g blk C).nodes =
      (g.nodes.filter fun nd => decide (nd.nid ∈ ancNids g blk)) ++
        C :: (g.nodes.filter fun nd =>
          decide (nd.nid ∉ blk) && decide (nd.nid ∉ ancNids g blk)) := rfl
  show (((substituteNodeWithDag g blk C).nodes.filter
      fun nd => decide (w ∈ OpNode.wires nd)).map OpNode.nid) = _
  rw [hnodes, List.filter_append, List.map_append, List.filter_cons]
  have hpart1 : ((g.nodes.filter fun nd => decide (nd.nid ∈ ancNids g blk)).filter
      (fun nd => decide (w ∈ nd.wires))).map OpNode.nid =
      (wireSeq g w).filter (fun x => decide (x ∈ ancNids g blk)) := by
    rw [filter_swap, map_nid_filter_nid_pred (fun x => decide (x ∈ ancNids g blk))]
    rfl
  have hpart2 : ((g.nodes.filter fun nd =>
      decide (nd.nid ∉ blk) && decide (nd.nid ∉ ancNids g blk)).filter
      (fun nd => decide (w ∈ nd.wires))).map OpNode.nid =
      (wireSeq g w).filter (fun x => decide (x ∉ blk) && decide (x ∉ ancNids g blk)) := by
    rw [filter_swap,
      map_nid_filter_nid_pred (fun x => decide (x ∉ blk) && decide (x ∉ ancNids g blk))]
    rfl
  rw [hpart1]
  by_cases hw : w ∈ OpNode.wires C
  · rw [if_pos (by simpa using hw), if_pos hw, List.map_cons, hpart2]
  · rw [if_neg (by simpa using hw), if_neg hw, hpart2]

/-- Master decomposition: around a contiguous block, every wire order of
the substituted graph is the original order with the block's contiguous
run replaced, in place, by the single new node. -/
theorem substWireDecomp {g : CircuitGraph} {blk : List ℕ} (HN : g.nids.Nodup)
    (HC : Contiguous g blk) {C : OpNode} {w : Wire} (hw : w ∈ OpNode.wires C) :
    wireSeq g w =
        (wireSeq g w).filter (fun x => decide (x ∈ ancNids g blk)) ++
          (wireSeq g w).filter (fun x => decide (x ∈ blk)) ++
          (wireSeq g w).filter (fun x => decide (x ∉ blk) && decide (x ∉ ancNids g blk)) ∧
      wireSeq (substituteNodeWithDag g blk C) w =
        (wireSeq g w).filter (fun x => decide (x ∈ ancNids g blk)) ++
          C.nid :: (wireSeq g w).filter
            (fun x => decide (x ∉ blk) && decide (x ∉ ancNids g blk)) := by
  constructor
  · exact wireSeq_decomp g blk w HN HC
  · rw [wireSeq_subst, if_pos hw]

/-! ### Fresh identities, well-formedness of the substituted graph -/

theorem le_foldr_max (x : ℕ) (l : List ℕ) (h : x ∈ l) : x ≤ l.foldr max 0 := by
  induction l with
  | nil => cases h
  | cons a t ih =>
    rcases List.mem_cons.mp h with rfl | h'
    · exact Nat.le_max_left _ _
    · exact Nat.le_trans (ih h') (Nat.le_max_right _ _)

theorem nid_lt_freshNid {g : CircuitGraph} {nd : OpNode} (h : nd ∈ g.nodes) :
    nd.nid < freshNid g :=
  Nat.lt_succ_of_le (le_foldr_max nd.nid g.nids (List.mem_map_of_mem _ h))

theorem freshNid_not_mem (g : CircuitGraph) : freshNid g ∉ g.nids := by
  intro h
  obtain ⟨nd, hnd, he⟩ := List.mem_map.mp h
  exact absurd (he ▸ nid_lt_freshNid hnd) (Nat.lt_irrefl _)

theorem consolidatedNode_qargs (g : CircuitGraph) (blk : List ℕ) :
    (consolidatedNode g blk).qargs = blockWires g blk := rfl

theorem consolidatedNode_wires (g : CircuitGraph) (blk : List ℕ) :
    OpNode.wires (consolidatedNode g blk) = blockWires g blk := by
  unfold OpNode.wires consolidatedNode
  exact List.append_nil _

theorem mem_blockWires (g : CircuitGraph) (blk : List ℕ) (w : Wire) :
    w ∈ blockWires g blk ↔ ∃ nd ∈ blockSeq g blk, w ∈ nd.qargs := by
  unfold blockWires
  rw [mem_canonicalOrder, List.mem_flatten]
  constructor
  · rintro ⟨qs, hqs, hw⟩
    obtain ⟨nd, hnd, rfl⟩ := List.mem_map.mp hqs
    exact ⟨nd, hnd, hw⟩
  · rintro ⟨nd, hnd, hw⟩
    exact ⟨nd.qargs, List.mem_map_of_mem _ hnd, hw⟩

theorem subst_nodes (g : CircuitGraph) (blk : List ℕ) (C : OpNode) :
    (substituteNodeWithDag g blk C).nodes =
      (g.nodes.filter fun nd => decide (nd.nid ∈ ancNids g blk)) ++
        C :: (g.nodes.filter fun nd =>
          decide (nd.nid ∉ blk) && decide (nd.nid ∉ ancNids g blk)) := rfl

theorem subst_wires (g : CircuitGraph) (blk : List ℕ) (C : OpNode) :
    (substituteNodeWithDag g blk C).wires = g.wires := rfl

theorem subst_nids (g : CircuitGraph) (blk : List ℕ) (C : OpNode) :
    (substituteNodeWithDag g blk C).nids =
      g.nids.filter (fun x => decide (x ∈ ancNids g blk)) ++
        C.nid :: g.nids.filter (fun x => decide (x ∉ blk) && decide (x ∉ ancNids g blk)) := by
  show ((_ ++ C :: _).map OpNode.nid) = _
  rw [List.map_append, List.map_cons,
    map_nid_filter_nid_pred (fun x => decide (x ∈ ancNids g blk)),
    map_nid_filter_nid_pred (fun x => decide (x ∉ blk) && decide (x ∉ ancNids g blk))]
  rfl

theorem subst_nids_nodup {g : CircuitGraph} (blk : List ℕ) {C : OpNode}
    (HN : g.nids.Nodup) (hC : C.nid ∉ g.nids) :
    (substituteNodeWithDag g blk C).nids.Nodup := by
  rw [subst_nids, List.nodup_append]
  refine ⟨(List.filter_sublist g.nids).nodup HN, ?_, ?_⟩
  · rw [List.nodup_cons]
    refine ⟨fun hmem => hC ((List.filter_sublist g.nids).subset hmem),
      (List.filter_sublist g.nids).nodup HN⟩
  · intro x hx hy
    rcases List.mem_cons.mp hy with rfl | hy'
    · exact hC ((List.filter_sublist g.nids).subset hx)
    · have h1 := (List.mem_filter.mp hx).2
      have h2 := (List.mem_filter.mp hy').2
      simp only [decide_eq_true_eq, Bool.and_eq_true] at h1 h2
      exact h2.2 h1

theorem blockWires_nodup (g : CircuitGraph) (blk : List ℕ) : (blockWires g blk).Nodup := by
  unfold blockWires
  exact canonicalOrder_nodup _

theorem blockWires_sorted (g : CircuitGraph) (blk : List ℕ) :
    (blockWires g blk).Sorted wireLe := by
  unfold blockWires
  exact canonicalOrder_sorted _

theorem canonicalOrder_idem (ws : List Wire) :
    canonicalOrder (canonicalOrder ws) = canonicalOrder ws := by
  show List.insertionSort wireLe (canonicalOrder ws).dedup = canonicalOrder ws
  rw [List.dedup_eq_self.mpr (canonicalOrder_nodup ws)]
  exact List.Sorted.insertionSort_eq (canonicalOrder_sorted ws)

theorem consolidatedMatrix_singleton (g : CircuitGraph) (blk : List ℕ) (nd : OpNode)
    (hseq : blockSeq g blk = [nd]) :
    consolidatedMatrix g blk =
      embedNode (blockWires g blk).length (blockWires g blk) nd := by
  unfold consolidatedMatrix
  rw [hseq, composeBlock_singleton]

theorem consolidatedNode_mat_singleton (g : CircuitGraph) (blk : List ℕ) (nd : OpNode)
    (hseq : blockSeq g blk = [nd]) (hq : nd.qargs = blockWires g blk) (i j : ℕ) :
    (consolidatedNode g blk).mat i j =
      if i < 2 ^ (blockWires g blk).length ∧ j < 2 ^ (blockWires g blk).length then
        nd.mat i j
      else 0 := by
  show untype (consolidatedMatrix g blk) i j = _
  unfold untype
  split_ifs with h
  · rw [consolidatedMatrix_singleton g blk nd hseq]
    exact embedNode_self (blockWires g blk) (blockWires_nodup g blk) nd hq ⟨i, h.1⟩ ⟨j, h.2⟩
  · rfl

/-- After substituting the consolidated node, collecting the identical
block boundaries again finds exactly that node. -/
theorem blockSeq_subst_self (g : CircuitGraph) (blk : List ℕ) :
    blockSeq (substituteNodeWithDag g blk (consolidatedNode g blk))
      [(consolidatedNode g blk).nid] = [consolidatedNode g blk] := by
  unfold blockSeq
  rw [subst_nodes, List.filter_append, List.filter_cons]
  have hne : ∀ l : List OpNode, l.Sublist g.nodes →
      l.filter (fun nd => decide (nd.nid ∈ [(consolidatedNode g blk).nid])) = [] := by
    intro l hl
    refine List.filter_eq_nil_iff.mpr fun nd hnd => ?_
    have hg : nd ∈ g.nodes := hl.subset hnd
    have : nd.nid ≠ (consolidatedNode g blk).nid := by
      show nd.nid ≠ freshNid g
      exact Nat.ne_of_lt (nid_lt_freshNid hg)
    simp [this]
  rw [hne _ (List.filter_sublist g.nodes), hne _ (List.filter_sublist g.nodes)]
  simp

theorem blockWires_subst_self (g : CircuitGraph) (blk : List ℕ) :
    blockWires (substituteNodeWithDag g blk (consolidatedNode g blk))
      [(consolidatedNode g blk).nid] = blockWires g blk := by
  unfold blockWires
  rw [blockSeq_subst_self]
  show canonicalOrder ((consolidatedNode g blk).qargs ++ []) = _
  rw [List.append_nil, consolidatedNode_qargs]
  exact canonicalOrder_idem _

/-! ### Counting -/

theorem length_filter_three {α : Type} (p q r : α → Bool) (l : List α)
    (h : ∀ x ∈ l,
      (p x = true ∧ q x = false ∧ r x = false) ∨
        (p x = false ∧ q x = true ∧ r x = false) ∨
        (p x = false ∧ q x = false ∧ r x = true)) :
    (l.filter p).length + (l.filter q).length + (l.filter r).length = l.length := by
  induction l with
  | nil => rfl
  | cons a t ih =>
    have ht := ih fun x hx => h x (List.mem_cons_of_mem a hx)
    rcases h a (List.mem_cons_self a t) with ⟨h1, h2, h3⟩ | ⟨h1, h2, h3⟩ | ⟨h1, h2, h3⟩ <;>
      simp only [List.filter_cons, h1, h2, h3, if_true, if_false, List.length_cons,
        Bool.false_eq_true, List.length] <;>
      omega

/-- Substitution removes the block's nodes and adds exactly one node. -/
theorem subst_length (g : CircuitGraph) (blk : List ℕ) (C : OpNode) :
    (substituteNodeWithDag g blk C).nodes.length + (blockSeq g blk).length =
      g.nodes.length + 1 := by
  rw [subst_nodes]
  have hpart := length_filter_three
    (fun nd : OpNode => decide (nd.nid ∈ ancNids g blk))
    (fun nd : OpNode => decide (nd.nid ∈ blk))
    (fun nd : OpNode => decide (nd.nid ∉ blk) && decide (nd.nid ∉ ancNids g blk))
    g.nodes
    (fun nd _ => by
      by_cases h1 : nd.nid ∈ ancNids g blk
      · exact Or.inl (by simp [h1, not_mem_blk_of_mem_ancNids h1])
      · by_cases h2 : nd.nid ∈ blk
        · exact Or.inr (Or.inl (by simp [h1, h2]))
        · exact Or.inr (Or.inr (by simp [h1, h2])))
  have hseq : (blockSeq g blk).length =
      (g.nodes.filter fun nd : OpNode => decide (nd.nid ∈ blk)).length := rfl
  simp only [List.length_append, List.length_cons]
  omega

/-! ### Claim theorems -/

theorem consolidateBlock_wires (g : CircuitGraph) (blk : List ℕ) (force : Bool) :
    (consolidateBlock g blk force).wires = g.wires := by
  unfold consolidateBlock
  split_ifs with h
  · rfl
  · rfl

theorem foldl_consolidateBlock_wires (blocks : List (List ℕ)) (force : Bool)
    (g : CircuitGraph) :
    (blocks.foldl (fun h b => consolidateBlock h b force) g).wires = g.wires := by
  induction blocks generalizing g with
  | nil => rfl
  | cons b rest ih => rw [List.foldl_cons, ih, consolidateBlock_wires]

/-- Claim C2: for every block with nodes `n1, …, nm` in the block's
topological (execution) order, the composite matrix built by `consolidate`
equals the product `E(nm) * … * E(n1)` of the nodes' embedded matrices —
the node executed first is the rightmost factor, and the running product
is left-multiplied by each successive node's embedded matrix. -/
theorem claim_C2 (g : CircuitGraph) (blk : List ℕ) :
    consolidatedMatrix g blk =
      ((blockSeq g blk).map
        (embedNode (blockWires g blk).length (blockWires g blk))).reverse.prod := by
  unfold consolidatedMatrix
  exact composeBlock_eq_reverse_prod _ _ _

/-- Claim C8: a successful `consolidate` call preserves the graph's external
wire interface: the output graph has the same wire set (hence the same
input/output sentinel pair per wire) as the input — no wire is created or
destroyed by the pass. -/
theorem claim_C8 (g : CircuitGraph) (blocks : List (List ℕ)) (force : Bool)
    (g' : CircuitGraph) (h : consolidate g blocks force = Except.ok g') :
    g'.wires = g.wires := by
  unfold consolidate at h
  by_cases h1 : overlapping blocks = true
  · rw [if_pos h1] at h
    cases h
  · rw [if_neg h1] at h
    by_cases h2 : (blocks.any fun b => decide (¬Contiguous g b)) = true
    · rw [if_pos h2] at h
      cases h
    · rw [if_neg h2] at h
      cases h
      exact foldl_consolidateBlock_wires blocks force g

/-- Witness for C8 at a concrete graph and block list. -/
theorem claim_C8_witness :
    ∃ g', consolidate gWireOrder [[0]] true = Except.ok g' ∧ g'.wires = gWireOrder.wires :=
  ⟨_, rfl, claim_C8 gWireOrder [[0]] true _ rfl⟩

/-- Claim C7: `consolidate` has no partial-success mode.  If the supplied
block list violates the caller contract, the call fails with the
corresponding error kind — overlapping blocks yield `ConflictError`, a
non-contiguous block yields `GraphStructureError` — and (the model being a
pure function that only returns a new graph on success) the input graph is
left unmodified; otherwise every block is consolidated according to the
per-block policy. -/
theorem claim_C7 (g : CircuitGraph) (blocks : List (List ℕ)) (force : Bool) :
    (overlapping blocks = true →
      consolidate g blocks force = Except.error ConsolidateError.conflict) ∧
      (overlapping blocks = false → (∃ b ∈ blocks, ¬Contiguous g b) →
        consolidate g blocks force = Except.error ConsolidateError.graphStructure) ∧
      (overlapping blocks = false → (∀ b ∈ blocks, Contiguous g b) →
        consolidate g blocks force =
          Except.ok (blocks.foldl (fun h b => consolidateBlock h b force) g)) := by
  refine ⟨fun h1 => ?_, fun h1 h2 => ?_, fun h1 h2 => ?_⟩
  · unfold consolidate
    rw [if_pos h1]
  · unfold consolidate
    rw [if_neg (by simp [h1]), if_pos]
    obtain ⟨b, hb, hnc⟩ := h2
    exact List.any_eq_true.mpr ⟨b, hb, by simpa using hnc⟩
  · unfold consolidate
    have hany : (blocks.any fun b => decide (¬Contiguous g b)) = false := by
      rw [List.any_eq_false]
      intro b hb
      simpa using h2 b hb
    rw [if_neg (by simp [h1]), if_neg (by rw [hany]; simp)]

/-- Witness for C7: a concrete overlap, a concrete non-contiguous block,
and a concrete valid call. -/
theorem claim_C7_witness :
    consolidate gWireOrder [[0], [0]] true = Except.error ConsolidateError.conflict ∧
      consolidate gSandwich [[0, 2]] true = Except.error ConsolidateError.graphStructure ∧
      ∃ g', consolidate gWireOrder [[0]] true = Except.ok g' :=
  ⟨(claim_C7 gWireOrder [[0], [0]] true).1 (by decide),
    (claim_C7 gSandwich [[0, 2]] true).2.1 (by decide)
      ⟨[0, 2], by decide, by decide⟩,
    ⟨_, (claim_C7 gWireOrder [[0]] true).2.2 (by decide) (by decide)⟩⟩

/-- Claim C6: a block consisting of exactly one node whose operation is
already a basic gate is left unchanged (no new node is created) when
`force_consolidate` is false — steps 3–5 are skipped; when
`force_consolidate` is true the node is replaced by a ConsolidatedNode of
equal effect (its composite matrix is exactly the gate's embedding into
the block's canonical basis). -/
theorem claim_C6 (g : CircuitGraph) (blk : List ℕ) (nd : OpNode)
    (hseq : blockSeq g blk = [nd]) (hg : nd.kind = OpKind.gate) :
    consolidateBlock g blk false = g ∧
      consolidateBlock g blk true =
        substituteNodeWithDag g blk (consolidatedNode g blk) ∧
      consolidatedNode g blk ∈ (consolidateBlock g blk true).nodes ∧
      (consolidatedNode g blk).kind = OpKind.consolidated ∧
      consolidatedMatrix g blk =
        embedNode (blockWires g blk).length (blockWires g blk) nd := by
  have htriv : blockTrivial g blk = true := by
    unfold blockTrivial
    rw [hseq]
    simpa using hg
  refine ⟨?_, rfl, ?_, rfl, consolidatedMatrix_singleton g blk nd hseq⟩
  · unfold consolidateBlock
    rw [if_pos (by simp [htriv])]
  · show consolidatedNode g blk ∈ (substituteNodeWithDag g blk (consolidatedNode g blk)).nodes
    rw [subst_nodes]
    exact List.mem_append_right _ (List.mem_cons_self _ _)

/-- Witness for C6 at the one-gate graph. -/
theorem claim_C6_witness :
    consolidateBlock gWireOrder [0] false = gWireOrder ∧
      consolidatedNode gWireOrder [0] ∈ (consolidateBlock gWireOrder [0] true).nodes :=
  have h := claim_C6 gWireOrder [0] ⟨0, OpKind.gate, cxMat, [wA1, wA0], []⟩ rfl rfl
  ⟨h.1, h.2.2.1⟩

/-- Claim C3: for every consolidated block, the ConsolidatedNode's `qargs`
are the block's wires sorted ascending by global wire ordinal (without
duplicates, and containing exactly the wires the block's gates touch),
independent of the argument order of the constituent gates; in particular
consolidating a single 2-wire controlled-NOT whose `qargs` list the
higher-ordinal wire (control) first yields `qargs` in ascending order and
the matrix `[[1,0,0,0],[0,1,0,0],[0,0,0,1],[0,0,1,0]]`. -/
theorem claim_C3 :
    (∀ (g : CircuitGraph) (blk : List ℕ),
        (consolidatedNode g blk).qargs.Sorted wireLe ∧
          (consolidatedNode g blk).qargs.Nodup ∧
          ∀ w, w ∈ (consolidatedNode g blk).qargs ↔ ∃ nd ∈ blockSeq g blk, w ∈ nd.qargs) ∧
      (consolidatedNode gWireOrder [0]).qargs = [wA0, wA1] ∧
      ∀ i < 4, ∀ j < 4, (consolidatedNode gWireOrder [0]).mat i j = canonCX i j := by
  refine ⟨fun g blk =>
    ⟨blockWires_sorted g blk, blockWires_nodup g blk, fun w => mem_blockWires g blk w⟩,
    by decide, by decide⟩

/-- Claim C9: re-derivation is idempotent.  Consolidating a block, then
re-collecting the identical block boundary (the single ConsolidatedNode)
in the substituted graph and consolidating again, yields the same
canonical wire list and a matrix entry-for-entry identical to the first
consolidation's matrix (in particular within the 1e-7 fidelity
tolerance). -/
theorem claim_C9 (g : CircuitGraph) (blk : List ℕ) :
    blockWires (substituteNodeWithDag g blk (consolidatedNode g blk))
        [(consolidatedNode g blk).nid] = blockWires g blk ∧
      ∀ i j : ℕ,
        (consolidatedNode (substituteNodeWithDag g blk (consolidatedNode g blk))
            [(consolidatedNode g blk).nid]).mat i j =
          (consolidatedNode g blk).mat i j := by
  have hseq := blockSeq_subst_self g blk
  have hW := blockWires_subst_self g blk
  refine ⟨hW, fun i j => ?_⟩
  have hq : (consolidatedNode g blk).qargs =
      blockWires (substituteNodeWithDag g blk (consolidatedNode g blk))
        [(consolidatedNode g blk).nid] := by
    rw [consolidatedNode_qargs, hW]
  rw [consolidatedNode_mat_singleton _ _ (consolidatedNode g blk) hseq hq i j]
  have hk : (blockWires (substituteNodeWithDag g blk (consolidatedNode g blk))
      [(consolidatedNode g blk).nid]).length = (blockWires g blk).length := by
    rw [hW]
  rw [hk]
  by_cases hcond :
      i < 2 ^ (blockWires g blk).length ∧ j < 2 ^ (blockWires g blk).length
  · rw [if_pos hcond]
  · rw [if_neg hcond]
    show 0 = untype (consolidatedMatrix g blk) i j
    unfold untype
    rw [dif_neg hcond]

/-- Claim C1: for every contiguous block consolidated by `consolidate`
(including blocks spanning 3 wires and blocks spanning two registers), the
block is replaced by exactly one ConsolidatedNode — the node count drops
by the block size minus one, the new node is present, and every other
node of the result is an untouched non-block node of the input — whose
`qargs` set equals the union of the block's wires, and whose composite
matrix compared against direct numerical simulation of the block's
operations in order has process fidelity at least `1 - 1e-7` (for a
unitary composite, the fidelity is exactly 1). -/
theorem claim_C1 (g : CircuitGraph) (blk : List ℕ) (HC : Contiguous g blk) :
    consolidate g [blk] true =
        Except.ok (substituteNodeWithDag g blk (consolidatedNode g blk)) ∧
      (substituteNodeWithDag g blk (consolidatedNode g blk)).nodes.length +
          (blockSeq g blk).length = g.nodes.length + 1 ∧
      consolidatedNode g blk ∈ (substituteNodeWithDag g blk (consolidatedNode g blk)).nodes ∧
      (consolidatedNode g blk).kind = OpKind.consolidated ∧
      (∀ nd ∈ (substituteNodeWithDag g blk (consolidatedNode g blk)).nodes,
        nd = consolidatedNode g blk ∨ (nd ∈ g.nodes ∧ nd.nid ∉ blk)) ∧
      (∀ w, w ∈ (consolidatedNode g blk).qargs ↔ ∃ nd ∈ blockSeq g blk, w ∈ nd.qargs) ∧
      (IsUnitary (consolidatedMatrix g blk) →
        fidelityTolerance ≤ processFidelity (consolidatedMatrix g blk)
          (simulate (blockWires g blk).length (blockWires g blk) (blockSeq g blk))) := by
  refine ⟨?_, subst_length g blk (consolidatedNode g blk), ?_, rfl, ?_, ?_, ?_⟩
  · unfold consolidate
    rw [if_neg (by simp [overlapping]), if_neg (by simpa using HC)]
    rfl
  · rw [subst_nodes]
    exact List.mem_append_right _ (List.mem_cons_self _ _)
  · intro nd hnd
    rw [subst_nodes] at hnd
    rcases List.mem_append.mp hnd with hA | hCB
    · right
      have hanc : nd.nid ∈ ancNids g blk := by
        have := (List.mem_filter.mp hA).2
        simpa using this
      exact ⟨(List.mem_filter.mp hA).1, not_mem_blk_of_mem_ancNids hanc⟩
    · rcases List.mem_cons.mp hCB with rfl | hB
      · exact Or.inl rfl
      · right
        have h2 := (List.mem_filter.mp hB).2
        simp only [Bool.and_eq_true, decide_eq_true_eq] at h2
        exact ⟨(List.filter_sublist g.nodes).subset hB, h2.1⟩
  · exact fun w => mem_blockWires g blk w
  · intro hu
    rw [simulate_eq_composeBlock]
    show fidelityTolerance ≤ processFidelity (consolidatedMatrix g blk) (consolidatedMatrix g blk)
    exact processFidelity_self_ge _ hu (by simp)

/-- Witness for C1 at a three-wire, two-register block of three gates. -/
theorem claim_C1_witness :
    consolidate gThreeQ [[0, 1, 2]] true =
        Except.ok
          (substituteNodeWithDag gThreeQ [0, 1, 2] (consolidatedNode gThreeQ [0, 1, 2])) ∧
      fidelityTolerance ≤ processFidelity (consolidatedMatrix gThreeQ [0, 1, 2])
        (simulate (blockWires gThreeQ [0, 1, 2]).length (blockWires gThreeQ [0, 1, 2])
          (blockSeq gThreeQ [0, 1, 2])) :=
  have h := claim_C1 gThreeQ [0, 1, 2] (by decide)
  ⟨h.1, h.2.2.2.2.2.2 (by decide)⟩

/-- Claim C4: after substitution, every node outside the block that was a
predecessor (resp. successor) of a block member on a shared wire is a
predecessor (resp. successor) of the ConsolidatedNode on that wire — in
particular a node strictly before all members on a shared wire stays
strictly before the new node — while a node sharing no wire with the
block stays in the graph and shares no wire with the ConsolidatedNode,
keeping its freedom to reorder relative to it. -/
theorem claim_C4 (g : CircuitGraph) (blk : List ℕ) (HN : g.nids.Nodup)
    (HC : Contiguous g blk) (Hcargs : ∀ nd ∈ blockSeq g blk, nd.cargs = [])
    (w : Wire) (u m : ℕ) (hu : u ∉ blk) (hm : m ∈ blk) :
    ([u, m].Sublist (wireSeq g w) →
        [u, (consolidatedNode g blk).nid].Sublist
          (wireSeq (substituteNodeWithDag g blk (consolidatedNode g blk)) w)) ∧
      ([m, u].Sublist (wireSeq g w) →
        [(consolidatedNode g blk).nid, u].Sublist
          (wireSeq (substituteNodeWithDag g blk (consolidatedNode g blk)) w)) ∧
      (∀ ndu ∈ g.nodes, ndu.nid = u →
        (∀ nd ∈ blockSeq g blk, touches ndu nd = false) →
        ndu ∈ (substituteNodeWithDag g blk (consolidatedNode g blk)).nodes ∧
          ∀ w2, ¬(w2 ∈ OpNode.wires ndu ∧
            w2 ∈ OpNode.wires (consolidatedNode g blk))) := by
  have hCw : ∀ {a : OpNode}, a ∈ g.nodes → a.nid ∈ blk → w ∈ OpNode.wires a →
      w ∈ OpNode.wires (consolidatedNode g blk) := by
    intro a hag hab hwa
    have haseq : a ∈ blockSeq g blk := List.mem_filter.mpr ⟨hag, by simpa using hab⟩
    have hqa : w ∈ a.qargs := by
      have := Hcargs a haseq
      unfold OpNode.wires at hwa
      rw [this, List.append_nil] at hwa
      exact hwa
    rw [consolidatedNode_wires]
    exact (mem_blockWires g blk w).mpr ⟨a, haseq, hqa⟩
  refine ⟨?_, ?_, ?_⟩
  · intro hum
    obtain ⟨l₁, a, l₂, b, l₃, hsplit, hxa, hyb, hwa, hwb⟩ := wire_order_split hum
    have hbg : b ∈ g.nodes := by
      rw [hsplit]
      exact List.mem_append_right l₁
        (List.mem_cons_of_mem a (List.mem_append_right l₂ (List.mem_cons_self b l₃)))
    have hw : w ∈ OpNode.wires (consolidatedNode g blk) := hCw hbg (hyb ▸ hm) hwb
    have huanc : u ∈ ancNids g blk :=
      anc_of_before_marked HN hum ⟨b, mem_ancMark_self blk _ hbg (hyb ▸ hm), hyb⟩ hu
    obtain ⟨hdecomp, hsubst⟩ := substWireDecomp HN HC hw
    rw [hsubst]
    refine pair_sublist_left (List.mem_filter.mpr ⟨?_, by simpa using huanc⟩)
    exact hum.subset (List.mem_cons_self u [m])
  · intro hmu
    obtain ⟨l₁, a, l₂, b, l₃, hsplit, hxa, hyb, hwa, hwb⟩ := wire_order_split hmu
    have hag : a ∈ g.nodes := by
      rw [hsplit]
      exact List.mem_append_right l₁ (List.mem_cons_self a _)
    have hw : w ∈ OpNode.wires (consolidatedNode g blk) := hCw hag (hxa ▸ hm) hwa
    have hudesc : u ∉ ancNids g blk := by
      intro huanc
      have : u ∈ descNids g blk :=
        desc_of_after_marked HN hmu
          ⟨a, mem_ancMark_self blk _ (List.mem_reverse.mpr hag) (hxa ▸ hm), hxa⟩ hu
      exact HC u huanc this
    obtain ⟨hdecomp, hsubst⟩ := substWireDecomp HN HC hw
    rw [hsubst]
    refine pair_sublist_right (List.mem_filter.mpr ⟨?_, by simp [hu, hudesc]⟩)
    exact hmu.subset (List.mem_cons_of_mem m (List.mem_cons_self u []))
  · intro ndu hndu hnid hnotouch
    constructor
    · rw [subst_nodes]
      by_cases hanc : ndu.nid ∈ ancNids g blk
      · exact List.mem_append_left _ (List.mem_filter.mpr ⟨hndu, by simpa using hanc⟩)
      · refine List.mem_append_right _ (List.mem_cons_of_mem _
          (List.mem_filter.mpr ⟨hndu, ?_⟩))
        simp [hnid ▸ hu, hanc]
    · rintro w2 ⟨hw2u, hw2C⟩
      rw [consolidatedNode_wires] at hw2C
      obtain ⟨nd, hndseq, hndq⟩ := (mem_blockWires g blk w2).mp hw2C
      have : touches ndu nd = true :=
        touches_of_shared hw2u (List.mem_append_left _ hndq)
      rw [hnotouch nd hndseq] at this
      cases this

/-- Witness for C4: in the measure-before-block graph, the measure (node
1) precedes block member 2 on wire `wA1` and remains before the
ConsolidatedNode after substitution. -/
theorem claim_C4_witness :
    [1, (consolidatedNode gBefore [0, 2, 3]).nid].Sublist
      (wireSeq (substituteNodeWithDag gBefore [0, 2, 3]
        (consolidatedNode gBefore [0, 2, 3])) wA1) :=
  (claim_C4 gBefore [0, 2, 3] (by decide) (by decide) (by decide) wA1 1 2
    (by decide) (by decide)).1 (by decide)

/-- Claim C5: the ConsolidatedNode is placed exactly at the block's
contiguous wire-span: on every wire the block touches, the new wire order
is the old one with the block's contiguous run replaced in place — not at
the graph position of the first- or last-discovered member; and in the
concrete four-block example surrounding a swap, all four blocks land in
their own spans around the untouched middle node. -/
theorem claim_C5 :
    (∀ (g : CircuitGraph) (blk : List ℕ), g.nids.Nodup → Contiguous g blk →
        ∀ w ∈ blockWires g blk,
          ∃ P S,
            wireSeq g w =
                P ++ (wireSeq g w).filter (fun x => decide (x ∈ blk)) ++ S ∧
              (∀ x ∈ P, x ∉ blk) ∧
              (∀ x ∈ S, x ∉ blk) ∧
              wireSeq (substituteNodeWithDag g blk (consolidatedNode g blk)) w =
                P ++ (consolidatedNode g blk).nid :: S) ∧
      (consolidate gMiddle middleBlocks true).toOption.map
          (fun g2 => wireSeq g2 (wQ 1)) = some [9, 4, 11] ∧
      (consolidate gMiddle middleBlocks true).toOption.map
          (fun g2 => wireSeq g2 (wQ 2)) = some [10, 4, 12] ∧
      (consolidate gMiddle middleBlocks true).toOption.map
          (fun g2 => wireSeq g2 (wQ 0)) = some [9, 11] ∧
      (consolidate gMiddle middleBlocks true).toOption.map
          (fun g2 => wireSeq g2 (wQ 3)) = some [10, 12] := by
  refine ⟨?_, by decide, by decide, by decide, by decide⟩
  intro g blk HN HC w hw
  have hwC : w ∈ OpNode.wires (consolidatedNode g blk) := by
    rw [consolidatedNode_wires]
    exact hw
  obtain ⟨hdecomp, hsubst⟩ := substWireDecomp HN HC hwC
  refine ⟨(wireSeq g w).filter (fun x => decide (x ∈ ancNids g blk)),
    (wireSeq g w).filter (fun x => decide (x ∉ blk) && decide (x ∉ ancNids g blk)),
    hdecomp, ?_, ?_, hsubst⟩
  · intro x hx
    have := (List.mem_filter.mp hx).2
    exact not_mem_blk_of_mem_ancNids (by simpa using this)
  · intro x hx
    have := (List.mem_filter.mp hx).2
    simp only [Bool.and_eq_true, decide_eq_true_eq] at this
    exact this.1

/-- Witness for C5's general part at the measure-before-block graph. -/
theorem claim_C5_witness :
    ∃ P S,
      wireSeq gBefore wA1 =
          P ++ (wireSeq gBefore wA1).filter (fun x => decide (x ∈ [0, 2, 3])) ++ S ∧
        (∀ x ∈ P, x ∉ [0, 2, 3]) ∧
        (∀ x ∈ S, x ∉ [0, 2, 3]) ∧
        wireSeq (substituteNodeWithDag gBefore [0, 2, 3]
            (consolidatedNode gBefore [0, 2, 3])) wA1 =
          P ++ (consolidatedNode gBefore [0, 2, 3]).nid :: S :=
  claim_C5.1 gBefore [0, 2, 3] (by decide) (by decide) wA1 (by decide)

/-- Claim C10: `plot_gate_map` raises `QiskitError` whenever the backend
configuration reports `simulator = true`, before producing any figure
(the error is returned instead of a figure, whatever the label argument);
for a non-simulator backend whose qubit count has no preset layout
(not one of 5, 14, 16, 20) it returns an empty figure with the axes
turned off instead of raising. -/
theorem claim_C10 :
    (∀ (cfg : BackendConfig) (labels : Option (List ℕ)), cfg.simulator = true →
        plot_gate_map true cfg labels = Except.error GateMapError.qiskitError) ∧
      ∀ cfg : BackendConfig, cfg.simulator = false → cfg.n_qubits ∉ mplDataSizes →
        plot_gate_map true cfg none = Except.ok ⟨false, true⟩ := by
  constructor
  · intro cfg labels hsim
    unfold plot_gate_map
    rw [if_neg (by simp), if_pos hsim]
  · intro cfg hsim hn
    unfold plot_gate_map
    rw [if_neg (by simp), if_neg (by simp [hsim])]
    show (if cfg.n_qubits ∈ mplDataSizes then Except.ok (GMFigure.mk true true)
        else Except.ok (GMFigure.mk false true)) = Except.ok (GMFigure.mk false true)
    rw [if_neg hn]

/-- Witness for C10: a 5-qubit simulator backend is rejected, and a
7-qubit device backend gets an empty figure with the axes off. -/
theorem claim_C10_witness :
    plot_gate_map true ⟨true, 5, []⟩ none = Except.error GateMapError.qiskitError ∧
      plot_gate_map true ⟨false, 7, []⟩ none = Except.ok ⟨false, true⟩ :=
  ⟨claim_C10.1 ⟨true, 5, []⟩ none rfl, claim_C10.2 ⟨false, 7, []⟩ rfl (by decide)⟩
